import Mathlib

/-!
Verification of the expression-normalization and dispatch layer of the math
solver repository.  The definitions below are a shallow embedding of
`src/mathcorrectionapp.py`: the text normalizer `preprocess_input`, the router
`parse_input`, the symbol-list builder `get_symbols_from_input`, the
auto-detect logic and the operation branches of the Streamlit `Run` handler.
The external computer-algebra library (sympy) is modelled by a small
expression datatype together with a parser for the normalized grammar, the
standard differentiation rules with sympy's automatic simplifications, and a
linear-equation model of `solveset`; real-number semantics (`eval`) is used to
state that results are mathematically what they should be.
-/

/-- The list `MATH_FUNCS` of `src/mathcorrectionapp.py`, in source order. -/
def MATH_FUNCS : List String :=
  ["sin", "cos", "tan", "sec", "csc", "cot", "exp", "log", "sqrt",
   "asin", "acos", "atan"]

/-- Python's `\s` class for the ASCII inputs this app handles. -/
def isWS (c : Char) : Bool :=
  c = ' ' || c = '\t' || c = '\n' || c = '\r' || c = '\x0b' || c = '\x0c'

/-- Python's `\w` / `[A-Za-z0-9_]` class (ASCII). -/
def isWordChar (c : Char) : Bool := c.isAlpha || c.isDigit || c = '_'

/-- `leadsWith p l` is true when the list `l` starts with the pattern `p`
(character-prefix test used to embed the regex alternation over the known
function names). -/
def leadsWith : List Char → List Char → Bool
  | [], _ => true
  | _ :: _, [] => false
  | a :: as, b :: bs => a = b && leadsWith as bs

/-- `s.strip()` on the left: drop leading whitespace. -/
def lstrip (cs : List Char) : List Char := cs.dropWhile isWS

/-- `s.strip()` on the right: drop trailing whitespace. -/
def rstrip (cs : List Char) : List Char := (cs.reverse.dropWhile isWS).reverse

/-- Python `s.strip()`. -/
def stripCs (cs : List Char) : List Char := rstrip (lstrip cs)

/-- `s.replace('^', '**')`: every caret becomes the power operator. -/
def replCaret : List Char → List Char
  | [] => []
  | c :: rest => if c = '^' then '*' :: '*' :: replCaret rest else c :: replCaret rest

/-- `re.sub(r'\s+', ' ', s)`: collapse every whitespace run to one space.
The flag records whether the previous character was part of a run. -/
def collapseWS : Bool → List Char → List Char
  | _, [] => []
  | prevSp, c :: rest =>
    if isWS c then
      if prevSp then collapseWS true rest else ' ' :: collapseWS true rest
    else c :: collapseWS false rest

/-- Try the alternation over the function names, first name that matches wins
(this is how a regex alternation `sin|cos|...` picks its branch). -/
def tryFuncs {β : Type} (body : String → List Char → Option β) :
    List String → List Char → Option β
  | [], _ => none
  | f :: fs, l =>
    match body f l with
    | some r => some r
    | none => tryFuncs body fs l

/-- Rule 1 matcher, `\b({funcs})\s*\(\s*` at the head of `l`; on success
returns the replacement `f(` and the unconsumed tail. -/
def try1 (l : List Char) : Option (List Char × List Char) :=
  tryFuncs
    (fun fname l =>
      let f := fname.toList
      if leadsWith f l then
        let r1 := (l.drop f.length).dropWhile isWS
        match r1 with
        | '(' :: r2 => some (f ++ ['('], r2.dropWhile isWS)
        | _ => none
      else none)
    MATH_FUNCS l

/-- One pass of `re.sub` for rule 1 (`func (` with optional space becomes
`func(`).  The boolean tracks whether the previous original character was a
word character, deciding the `\b` word boundary; matches are non-overlapping
and scanning resumes after the consumed text, as in Python's `re.sub`. -/
def scan1 : Nat → Bool → List Char → List Char
  | 0, _, cs => cs
  | _ + 1, _, [] => []
  | fuel + 1, prevW, c :: cs =>
    if prevW then c :: scan1 fuel (isWordChar c) cs
    else
      match try1 (c :: cs) with
      | some (rep, rest) => rep ++ scan1 fuel false rest
      | none => c :: scan1 fuel (isWordChar c) cs

/-- The token class of rule 2: letters, digits, dot, star, plus, minus,
slash, caret, underscore and parentheses. -/
def isTok2 (c : Char) : Bool :=
  c.isAlpha || c.isDigit || c = '.' || c = '*' || c = '+' || c = '-' ||
  c = '/' || c = '^' || c = '_' || c = '(' || c = ')'

/-- Rule 2 matcher, `\b({funcs})\s+(token+)`; returns the replacement
`f(token)`, the word-character status of the last consumed original
character, and the unconsumed tail. -/
def try2 (l : List Char) : Option (List Char × Bool × List Char) :=
  tryFuncs
    (fun fname l =>
      let f := fname.toList
      if leadsWith f l then
        let r1 := l.drop f.length
        let sp := r1.takeWhile isWS
        if sp.isEmpty then none
        else
          let r2 := r1.dropWhile isWS
          let tok := r2.takeWhile isTok2
          if tok.isEmpty then none
          else some (f ++ '(' :: tok ++ [')'], isWordChar (tok.getLastD ' '),
                     r2.dropWhile isTok2)
      else none)
    MATH_FUNCS l

/-- One pass of `re.sub` for rule 2 (`func token` becomes `func(token)`). -/
def scan2 : Nat → Bool → List Char → List Char
  | 0, _, cs => cs
  | _ + 1, _, [] => []
  | fuel + 1, prevW, c :: cs =>
    if prevW then c :: scan2 fuel (isWordChar c) cs
    else
      match try2 (c :: cs) with
      | some (rep, pw, rest) => rep ++ scan2 fuel pw rest
      | none => c :: scan2 fuel (isWordChar c) cs

/-- The token class of rule 3: `[A-Za-z0-9\.\_\^]`. -/
def isTok3 (c : Char) : Bool :=
  c.isAlpha || c.isDigit || c = '.' || c = '_' || c = '^'

/-- Rule 3 matcher, `\b({funcs})(token+)` with no space (e.g. `sinx`). -/
def try3 (l : List Char) : Option (List Char × Bool × List Char) :=
  tryFuncs
    (fun fname l =>
      let f := fname.toList
      if leadsWith f l then
        let r1 := l.drop f.length
        let tok := r1.takeWhile isTok3
        if tok.isEmpty then none
        else some (f ++ '(' :: tok ++ [')'], isWordChar (tok.getLastD ' '),
                   r1.dropWhile isTok3)
      else none)
    MATH_FUNCS l

/-- One pass of `re.sub` for rule 3 (`sinx` becomes `sin(x)`). -/
def scan3 : Nat → Bool → List Char → List Char
  | 0, _, cs => cs
  | _ + 1, _, [] => []
  | fuel + 1, prevW, c :: cs =>
    if prevW then c :: scan3 fuel (isWordChar c) cs
    else
      match try3 (c :: cs) with
      | some (rep, pw, rest) => rep ++ scan3 fuel pw rest
      | none => c :: scan3 fuel (isWordChar c) cs

/-- Rule 4, `re.sub(r'(\d)([A-Za-z])', '\g<num>*\g<var>', s)`: a star between
a digit and a letter; non-overlapping, the matched pair is consumed. -/
def sub4 : List Char → List Char
  | [] => []
  | [c] => [c]
  | a :: b :: t =>
    if a.isDigit && b.isAlpha then a :: '*' :: b :: sub4 t
    else a :: sub4 (b :: t)

/-- Rule 5, `re.sub(r'([A-Za-z0-9_]+)\(', ...)`: a name directly before `(`
keeps the parenthesis if it is a known function and otherwise gets `*(`. -/
def scan5 : Nat → List Char → List Char
  | 0, cs => cs
  | _ + 1, [] => []
  | fuel + 1, c :: cs =>
    if isWordChar c then
      match cs.dropWhile isWordChar with
      | '(' :: r2 =>
        (c :: cs.takeWhile isWordChar) ++
          (if MATH_FUNCS.contains (String.mk (c :: cs.takeWhile isWordChar))
           then ['('] else ['*', '(']) ++ scan5 fuel r2
      | _ => c :: scan5 fuel cs
    else c :: scan5 fuel cs

/-- Rule 6, `s.replace(')(', ')*(')`, left to right and non-overlapping. -/
def sub6 : List Char → List Char
  | [] => []
  | [c] => [c]
  | a :: b :: t =>
    if a = ')' && b = '(' then ')' :: '*' :: '(' :: sub6 t
    else a :: sub6 (b :: t)

/-- The normalizer `preprocess_input` of `src/mathcorrectionapp.py`: strip,
caret to `**`, whitespace collapse, the three function-call rewrites, the
digit-letter star, the name-before-parenthesis star, `)(` to `)*(`, strip. -/
def preprocess_input (s : String) : String :=
  let c0 := stripCs s.toList
  let c1 := replCaret c0
  let c2 := collapseWS false c1
  let c3 := scan1 (c2.length + 1) false c2
  let c4 := scan2 (c3.length + 1) false c3
  let c5 := scan3 (c4.length + 1) false c4
  let c6 := sub4 c5
  let c7 := scan5 (c6.length + 1) c6
  let c8 := sub6 c7
  String.mk (stripCs c8)

example : preprocess_input "sinx" = "sin(x)" := by decide
example : preprocess_input "3x^2" = "3*x**2" := by decide

/-- C1: `normalize("sinx") = "sin(x)"`, `normalize("sin x") = "sin(x)"`, and
`normalize("sin(x)") = "sin(x)"`; the normalizer produces the explicit call
syntax and leaves already-correct input unchanged. -/
theorem c1_normalize_sin_forms :
    preprocess_input "sinx" = "sin(x)" ∧
    preprocess_input "sin x" = "sin(x)" ∧
    preprocess_input "sin(x)" = "sin(x)" := by
  refine ⟨?_, ?_, ?_⟩ <;> decide

/-- C5: `normalize("asinx") = "asin(x)"` and not `"a*sin(x)"`: the rewrite
matches the longer function name `asin`, the word boundary in the pattern
keeping the `sin` suffix from matching inside `asinx`. -/
theorem c5_normalize_asinx :
    preprocess_input "asinx" = "asin(x)" ∧
    preprocess_input "asinx" ≠ "a*sin(x)" := by
  refine ⟨?_, ?_⟩ <;> decide

/-! ## The expression model of the computer-algebra library

`src/mathcorrectionapp.py` hands the normalized text to sympy's `parse_expr`
with a local dictionary mapping the known function names to sympy functions.
The datatype below is the shallow embedding of the resulting expression
trees; `Derivative` stands for sympy's unevaluated derivative node, returned
by `diff` only for a function with no closed-form derivative. -/

inductive Expr
  | num (n : Int)
  | sym (s : String)
  | pi
  | e
  | add (a b : Expr)
  | sub (a b : Expr)
  | mul (a b : Expr)
  | div (a b : Expr)
  | pow (a b : Expr)
  | neg (a : Expr)
  | fn (f : String) (arg : Expr)
  | Derivative (a : Expr) (v : String)
  deriving DecidableEq, Repr

/-- Names that resolve to callable sympy objects imported by the app's
`from sympy import ...` (and reachable through `parse_expr`'s global
namespace).  A bare occurrence of such a name, or arithmetic on it, is a
type error inside `parse_expr` and therefore a parse failure. -/
def sympyCallables : List String :=
  ["diff", "integrate", "Eq", "Symbol", "symbols", "solveset", "simplify",
   "factor", "expand", "sympify", "roots", "Poly", "latex"]

/-- Tokens of the normalized grammar accepted by the CAL parser. -/
inductive Tok
  | num (n : Nat)
  | name (s : String)
  | plus
  | minus
  | star
  | slash
  | dstar
  | lpar
  | rpar
  | comma
  deriving DecidableEq, Repr

/-- Numeric value of a digit run. -/
def digitsVal (ds : List Char) : Nat :=
  ds.foldl (fun n c => 10 * n + (c.toNat - 48)) 0

/-- Tokenizer for the normalized grammar: numbers, identifiers, the
arithmetic operators with `**`, parentheses and the argument comma.  Any
other character (in particular `=`) is rejected, as Python's tokenizer/eval
rejects it inside an expression. -/
def tokenize : Nat → List Char → Option (List Tok)
  | 0, _ => none
  | _ + 1, [] => some []
  | fuel + 1, c :: cs =>
    if isWS c then tokenize fuel cs
    else if c.isDigit then do
      let ts ← tokenize fuel (cs.dropWhile Char.isDigit)
      pure (Tok.num (digitsVal (c :: cs.takeWhile Char.isDigit)) :: ts)
    else if c.isAlpha || c = '_' then do
      let ts ← tokenize fuel (cs.dropWhile isWordChar)
      pure (Tok.name (String.mk (c :: cs.takeWhile isWordChar)) :: ts)
    else if c = '*' then
      match cs with
      | '*' :: cs2 => do
        let ts ← tokenize fuel cs2
        pure (Tok.dstar :: ts)
      | _ => do
        let ts ← tokenize fuel cs
        pure (Tok.star :: ts)
    else if c = '+' then do
      let ts ← tokenize fuel cs
      pure (Tok.plus :: ts)
    else if c = '-' then do
      let ts ← tokenize fuel cs
      pure (Tok.minus :: ts)
    else if c = '/' then do
      let ts ← tokenize fuel cs
      pure (Tok.slash :: ts)
    else if c = '(' then do
      let ts ← tokenize fuel cs
      pure (Tok.lpar :: ts)
    else if c = ')' then do
      let ts ← tokenize fuel cs
      pure (Tok.rpar :: ts)
    else if c = ',' then do
      let ts ← tokenize fuel cs
      pure (Tok.comma :: ts)
    else none

/-- Grammar level of the recursive-descent parser: additive expressions and
their continuation, multiplicative, unary sign, power, atom. -/
inductive Lvl
  | eAdd
  | eAddR
  | eMul
  | eMulR
  | eUna
  | ePow
  | eAtom

/-- Recursive-descent parser for the normalized grammar with Python's
precedence (`**` right-associative and tighter than unary minus on its
left).  The accumulator argument is used by the continuation levels; a
known-callable name used without application is rejected, exactly as the
corresponding Python object would fail under arithmetic inside `eval`, and
an unknown name applied to arguments becomes an undefined-function
application.  Argument tuples (top-level or multi-argument commas) are
outside the modelled fragment and are rejected. -/
def pAux : Nat → Lvl → Expr → List Tok → Option (Expr × List Tok)
  | 0, _, _, _ => none
  | fuel + 1, .eAdd, _, ts => do
    let (a, ts1) ← pAux fuel .eMul (.num 0) ts
    pAux fuel .eAddR a ts1
  | fuel + 1, .eAddR, acc, .plus :: ts => do
    let (b, ts1) ← pAux fuel .eMul (.num 0) ts
    pAux fuel .eAddR (.add acc b) ts1
  | fuel + 1, .eAddR, acc, .minus :: ts => do
    let (b, ts1) ← pAux fuel .eMul (.num 0) ts
    pAux fuel .eAddR (.sub acc b) ts1
  | _ + 1, .eAddR, acc, ts => some (acc, ts)
  | fuel + 1, .eMul, _, ts => do
    let (a, ts1) ← pAux fuel .eUna (.num 0) ts
    pAux fuel .eMulR a ts1
  | fuel + 1, .eMulR, acc, .star :: ts => do
    let (b, ts1) ← pAux fuel .eUna (.num 0) ts
    pAux fuel .eMulR (.mul acc b) ts1
  | fuel + 1, .eMulR, acc, .slash :: ts => do
    let (b, ts1) ← pAux fuel .eUna (.num 0) ts
    pAux fuel .eMulR (.div acc b) ts1
  | _ + 1, .eMulR, acc, ts => some (acc, ts)
  | fuel + 1, .eUna, _, .minus :: ts => do
    let (a, ts1) ← pAux fuel .eUna (.num 0) ts
    pure (.neg a, ts1)
  | fuel + 1, .eUna, _, .plus :: ts => pAux fuel .eUna (.num 0) ts
  | fuel + 1, .eUna, _, ts => pAux fuel .ePow (.num 0) ts
  | fuel + 1, .ePow, _, ts => do
    let (a, ts1) ← pAux fuel .eAtom (.num 0) ts
    match ts1 with
    | .dstar :: ts2 => do
      let (b, ts3) ← pAux fuel .eUna (.num 0) ts2
      pure (.pow a b, ts3)
    | _ => pure (a, ts1)
  | fuel + 1, .eAtom, _, ts =>
    match ts with
    | .num n :: ts1 => some (.num (Int.ofNat n), ts1)
    | .name f :: .lpar :: ts1 =>
      if f = "pi" || f = "E" || sympyCallables.contains f then none
      else do
        let (arg, ts2) ← pAux fuel .eAdd (.num 0) ts1
        match ts2 with
        | .rpar :: ts3 => some (.fn f arg, ts3)
        | _ => none
    | .name f :: ts1 =>
      if MATH_FUNCS.contains f || sympyCallables.contains f then none
      else if f = "pi" then some (.pi, ts1)
      else if f = "E" then some (.e, ts1)
      else some (.sym f, ts1)
    | .lpar :: ts1 => do
      let (a, ts2) ← pAux fuel .eAdd (.num 0) ts1
      match ts2 with
      | .rpar :: ts3 => some (a, ts3)
      | _ => none
    | _ => none

deriving instance DecidableEq for Except

/-- The wrapper `parse_expr_with_local`: parse the string against the local
dictionary, failing with the offending text (sympy's `SympifyError` carries
the expression it failed on). -/
def parse_expr_with_local (s : String) : Except String Expr :=
  match tokenize (s.toList.length + 1) s.toList with
  | none => .error s
  | some ts =>
    match pAux ((ts.length + 1) * 8) .eAdd (.num 0) ts with
    | some (ex, []) => .ok ex
    | _ => .error s

/-! ## Automatic simplification and differentiation of the CAL

sympy flattens arithmetic on the fly: numeric literals combine, `1 * e` and
`e + 0` collapse, a natural-number power of a literal is computed.  The
smart constructors below model exactly these automatic rules so that the
modelled `diff` returns the same trees sympy prints (e.g. `cos(x)` and not
`cos(x)*1`). -/

/-- Automatic addition. -/
def addS : Expr → Expr → Expr
  | .num 0, b => b
  | a, .num 0 => a
  | .num m, .num n => .num (m + n)
  | a, b => .add a b

/-- Automatic negation. -/
def negS : Expr → Expr
  | .num n => .num (-n)
  | a => .neg a

/-- Automatic subtraction. -/
def subS : Expr → Expr → Expr
  | .num m, .num n => .num (m - n)
  | a, .num 0 => a
  | .num 0, b => negS b
  | a, b => .sub a b

/-- Automatic multiplication. -/
def mulS : Expr → Expr → Expr
  | .num 0, _ => .num 0
  | _, .num 0 => .num 0
  | .num 1, b => b
  | a, .num 1 => a
  | .num m, .num n => .num (m * n)
  | a, b => .mul a b

/-- Automatic power. -/
def powS : Expr → Expr → Expr
  | a, .num 1 => a
  | _, .num 0 => .num 1
  | .num m, .num n => if 0 ≤ n then .num (m ^ n.toNat) else .pow (.num m) (.num n)
  | a, b => .pow a b

/-- Automatic division. -/
def divS : Expr → Expr → Expr
  | a, .num 1 => a
  | a, b => .div a b

/-- Outer derivatives of the known functions, as sympy returns them. -/
def dfn (f : String) (u : Expr) : Expr :=
  if f = "sin" then .fn "cos" u
  else if f = "cos" then negS (.fn "sin" u)
  else if f = "tan" then addS (powS (.fn "tan" u) (.num 2)) (.num 1)
  else if f = "sec" then mulS (.fn "sec" u) (.fn "tan" u)
  else if f = "csc" then negS (mulS (.fn "csc" u) (.fn "cot" u))
  else if f = "cot" then subS (negS (powS (.fn "cot" u) (.num 2))) (.num 1)
  else if f = "exp" then .fn "exp" u
  else if f = "log" then divS (.num 1) u
  else if f = "sqrt" then divS (.num 1) (mulS (.num 2) (.fn "sqrt" u))
  else if f = "asin" then divS (.num 1) (.fn "sqrt" (subS (.num 1) (powS u (.num 2))))
  else if f = "acos" then negS (divS (.num 1) (.fn "sqrt" (subS (.num 1) (powS u (.num 2)))))
  else divS (.num 1) (addS (powS u (.num 2)) (.num 1))

/-- The CAL `diff(e, v)`: standard differentiation rules with the automatic
simplifications above; every registered function has a closed-form
derivative, so an unevaluated `Derivative` arises only for an undefined
function. -/
def diffBy (v : String) : Expr → Expr
  | .num _ => .num 0
  | .pi => .num 0
  | .e => .num 0
  | .sym s => if s = v then .num 1 else .num 0
  | .add a b => addS (diffBy v a) (diffBy v b)
  | .sub a b => subS (diffBy v a) (diffBy v b)
  | .neg a => negS (diffBy v a)
  | .mul a b => addS (mulS (diffBy v a) b) (mulS a (diffBy v b))
  | .div a b => divS (subS (mulS (diffBy v a) b) (mulS a (diffBy v b))) (powS b (.num 2))
  | .pow a b =>
    match b with
    | .num n => mulS (mulS (.num n) (powS a (.num (n - 1)))) (diffBy v a)
    | _ => mulS (powS a b)
        (addS (mulS (diffBy v b) (.fn "log" a)) (divS (mulS b (diffBy v a)) a))
  | .fn f arg =>
    if MATH_FUNCS.contains f then mulS (dfn f arg) (diffBy v arg)
    else .Derivative (.fn f arg) v
  | .Derivative a w => .Derivative (.Derivative a w) v

/-- Order-preserving union, used for the free-symbol list. -/
def unionS (xs ys : List String) : List String :=
  xs ++ ys.filter (fun y => !(xs.contains y))

/-- Free symbols of an expression in left-to-right order.  sympy's
`free_symbols` is a set; the app takes `list(syms)[0]`, which is only
well-defined when the set is a singleton, and that is the case this
development relies on. -/
def freeSyms : Expr → List String
  | .sym s => [s]
  | .add a b => unionS (freeSyms a) (freeSyms b)
  | .sub a b => unionS (freeSyms a) (freeSyms b)
  | .mul a b => unionS (freeSyms a) (freeSyms b)
  | .div a b => unionS (freeSyms a) (freeSyms b)
  | .pow a b => unionS (freeSyms a) (freeSyms b)
  | .neg a => freeSyms a
  | .fn _ arg => freeSyms arg
  | .Derivative a _ => freeSyms a
  | _ => []

/-! ## Equation construction and the parsed form -/

/-- A parsed request: a plain expression, an equation, or a boolean —
sympy's `Eq` evaluates to `True`/`False` on trivially equal or trivially
unequal sides. -/
inductive Parsed
  | expr (ex : Expr)
  | eqn (l r : Expr)
  | boolT
  | boolF
  deriving DecidableEq, Repr

/-- Fuel-driven Euclid: the fuel exceeds the first argument, so the base
case is never reached on the intended inputs (kept structural so that the
kernel can evaluate it). -/
def gcdFuel : Nat → Nat → Nat → Nat
  | 0, _, b => b
  | f + 1, a, b => if a = 0 then b else gcdFuel f (b % a) a

/-- Greatest common divisor via `gcdFuel`. -/
def gcdN (a b : Nat) : Nat := gcdFuel (a + 1) a b

/-- Exact rational numbers as reduced integer fractions; the model keeps
every constructed value normalized with a positive denominator.  (Mathlib's
`ℚ` is avoided only because its arithmetic does not evaluate inside the
kernel; this type plays the same role.) -/
structure Frac where
  n : Int
  d : Int
  deriving DecidableEq, Repr

/-- Reduce a fraction: positive denominator, coprime entries. -/
def Frac.norm (x : Frac) : Frac :=
  if x.d = 0 then ⟨0, 0⟩
  else
    let s : Int := if x.d < 0 then -1 else 1
    let g : Int := Int.ofNat (gcdN x.n.natAbs x.d.natAbs)
    ⟨s * x.n / g, s * x.d / g⟩

/-- Embed an integer. -/
def Frac.ofInt (k : Int) : Frac := ⟨k, 1⟩

/-- Addition. -/
def Frac.add (x y : Frac) : Frac := Frac.norm ⟨x.n * y.d + y.n * x.d, x.d * y.d⟩

/-- Negation. -/
def Frac.neg (x : Frac) : Frac := ⟨-x.n, x.d⟩

/-- Subtraction. -/
def Frac.sub (x y : Frac) : Frac := Frac.add x (Frac.neg y)

/-- Multiplication. -/
def Frac.mul (x y : Frac) : Frac := Frac.norm ⟨x.n * y.n, x.d * y.d⟩

/-- Division. -/
def Frac.div (x y : Frac) : Frac := Frac.norm ⟨x.n * y.d, x.d * y.n⟩

/-- Zero test (sound for fractions with a nonzero denominator). -/
def Frac.isZero (x : Frac) : Bool := x.n = 0

/-- Add a monomial to a normalized coefficient list (zero coefficients are
dropped). -/
def addCoeff (s : String) (q : Frac) : List (String × Frac) → List (String × Frac)
  | [] => if q.isZero then [] else [(s, q)]
  | (t, r) :: rest =>
    if s = t then
      if (q.add r).isZero then rest else (s, q.add r) :: rest
    else (t, r) :: addCoeff s q rest

/-- Merge two coefficient lists. -/
def mergeL (xs ys : List (String × Frac)) : List (String × Frac) :=
  ys.foldl (fun acc p => addCoeff p.1 p.2 acc) xs

/-- Scale a coefficient list. -/
def scaleL (c : Frac) (xs : List (String × Frac)) : List (String × Frac) :=
  if c.isZero then [] else xs.map (fun p => (p.1, c.mul p.2))

/-- Linear-combination view of an expression (coefficients and constant),
when it is a rational linear combination of symbols; this models sympy's
automatic collection of like terms in `Add`/`Mul`. -/
def linOf : Expr → Option (List (String × Frac) × Frac)
  | .num n => some ([], Frac.ofInt n)
  | .sym s => some ([(s, Frac.ofInt 1)], Frac.ofInt 0)
  | .neg a => do
    let (ca, qa) ← linOf a
    pure (scaleL (Frac.ofInt (-1)) ca, qa.neg)
  | .add a b => do
    let (ca, qa) ← linOf a
    let (cb, qb) ← linOf b
    pure (mergeL ca cb, qa.add qb)
  | .sub a b => do
    let (ca, qa) ← linOf a
    let (cb, qb) ← linOf b
    pure (mergeL ca (scaleL (Frac.ofInt (-1)) cb), qa.sub qb)
  | .mul a b =>
    match linOf a, linOf b with
    | some ([], qa), some (cb, qb) => some (scaleL qa cb, qa.mul qb)
    | some (ca, qa), some ([], qb) => some (scaleL qb ca, qa.mul qb)
    | _, _ => none
  | .div a b =>
    match linOf b with
    | some ([], qb) =>
      if qb.isZero then none
      else
        match linOf a with
        | some (ca, qa) => some (scaleL ((Frac.ofInt 1).div qb) ca, qa.div qb)
        | none => none
    | _ => none
  | _ => none

/-- sympy's `Eq(l, r)`: structurally equal sides give `True`; sides whose
difference collapses to a number give `True`/`False` by that number being
zero or not; otherwise the equation is kept unevaluated. -/
def mkEq (l r : Expr) : Parsed :=
  if l = r then .boolT
  else
    match linOf (Expr.sub l r) with
    | some ([], c) => if c.isZero then .boolT else .boolF
    | _ => .eqn l r

/-! ## The router `parse_input` -/

/-- The anchored pattern of the differentiation directive,
`d/d<letter>` after optional whitespace; returns the variable and the rest
of the text (with the whitespace after the variable consumed). -/
def matchDdx (cs : List Char) : Option (Char × List Char) :=
  match cs.dropWhile isWS with
  | 'd' :: '/' :: 'd' :: v :: rest =>
    if v.isAlpha then some (v, rest.dropWhile isWS) else none
  | _ => none

/-- The anchored pattern `diff ( inner )` over the whole text; the greedy
inner group extends to the last closing parenthesis that is followed only
by whitespace. -/
def matchDiff (cs : List Char) : Option (List Char) :=
  let l1 := cs.dropWhile isWS
  if leadsWith ['d', 'i', 'f', 'f'] l1 then
    match (l1.drop 4).dropWhile isWS with
    | '(' :: l3 =>
      let m := rstrip (l3.dropWhile isWS)
      match m.getLast? with
      | some ')' => some m.dropLast
      | _ => none
    | _ => none
  else none

/-- The `d/dx` directive branch shared by the router and its spec-side
variants: strip the rest, reject an empty body, parse it and return the
computed derivative. -/
def ddxBranch (v : Char) (rest : List Char) : Except String Parsed :=
  let rest := stripCs rest
  if rest.isEmpty then .error "No expression after d/d"
  else do
    let ex ← parse_expr_with_local (String.mk rest)
    pure (Parsed.expr (diffBy (String.mk [v]) ex))

/-- The `diff(...)` directive branch: parse the inner text, pick its free
symbol (default `x`) and return the computed derivative. -/
def diffBranch (inner : List Char) : Except String Parsed := do
  let ex ← parse_expr_with_local (String.mk inner)
  pure (Parsed.expr (diffBy ((freeSyms ex).headD "x") ex))

/-- The router on normalized text: try the `d/dx` directive, then the
`diff(...)` directive (both returning the derivative already computed), then
split at the first `=` into an equation, and otherwise parse a plain
expression. -/
def routeCore (s : List Char) : Except String Parsed :=
  match matchDdx s with
  | some (v, rest) => ddxBranch v rest
  | none =>
    match matchDiff s with
    | some inner => diffBranch inner
    | none =>
      if s.contains '=' then do
        let le ← parse_expr_with_local (String.mk (s.takeWhile (fun c => c ≠ '=')))
        let re ← parse_expr_with_local (String.mk ((s.dropWhile (fun c => c ≠ '=')).tail))
        pure (mkEq le re)
      else do
        let ex ← parse_expr_with_local (String.mk s)
        pure (Parsed.expr ex)

/-- `parse_input` of `src/mathcorrectionapp.py`: normalize, then route. -/
def parse_input (raw : String) : Except String Parsed :=
  routeCore (preprocess_input raw).toList

example : parse_expr_with_local "2*x + 3 " = .ok (.add (.mul (.num 2) (.sym "x")) (.num 3)) := by decide
example : parse_input "2x + 3 = 7" =
    .ok (.eqn (.add (.mul (.num 2) (.sym "x")) (.num 3)) (.num 7)) := by decide
example : parse_input "d/dx sinx" = .ok (.expr (.fn "cos" (.sym "x"))) := by decide
example : parse_input "diff(x^3)" = .error "diff*(x**3)" := by decide
example : parse_input "diff (x^3)" =
    .ok (.expr (.mul (.num 3) (.pow (.sym "x") (.num 2)))) := by decide
example : parse_input "x = x" = .ok .boolT := by decide
example : parse_input "x = x+1" = .ok .boolF := by decide
example : parse_input "(x=1)" = .error "(x" := by decide

/-! ## The dispatch layer of the Streamlit `Run` handler -/

/-- Generic splitter: cut the character list at every character satisfying
the separator test, keeping empty pieces, as Python's `str.split` with an
explicit separator does. -/
def splitBy (p : Char → Bool) : List Char → List (List Char)
  | [] => [[]]
  | c :: rest =>
    if p c then [] :: splitBy p rest
    else
      match splitBy p rest with
      | g :: gs => (c :: g) :: gs
      | [] => [[c]]

/-- Split at commas, Python `str.split(",")` (so the empty text gives one
empty piece). -/
def splitCommaCs (cs : List Char) : List (List Char) := splitBy (fun c => c = ',') cs

/-- The cleaned variable names of the sidebar text: split on commas, strip
each piece, drop the empty ones. -/
def cleanNames (varInput : String) : List String :=
  ((splitCommaCs varInput.toList).map (fun g => String.mk (stripCs g))).filter
    (fun s => s ≠ "")

/-- The nonempty whitespace-separated pieces of a character list — sympy's
`symbols` splits its name string this way. -/
def wsTokens (cs : List Char) : List (List Char) :=
  (splitBy isWS cs).filter (fun g => !g.isEmpty)

/-- Python `" ".join(names)`. -/
def joinSpace : List String → List Char
  | [] => []
  | [n] => n.toList
  | n :: rest => n.toList ++ ' ' :: joinSpace rest

/-- `get_symbols_from_input` of `src/mathcorrectionapp.py`: the sidebar text
is split on commas, each piece stripped, empties dropped; with no names the
single fallback symbol `x`; otherwise the names are joined with spaces and
handed to sympy's `symbols`, which splits the joined string again on
whitespace, producing one symbol per whitespace-separated piece (this is
why the source checks whether `symbols` returned a tuple).  sympy's range
syntax — a name containing a colon — is outside the modelled fragment. -/
def get_symbols_from_input (varInput : String) : List String :=
  if (cleanNames varInput).isEmpty then ["x"]
  else (wsTokens (joinSpace (cleanNames varInput))).map String.mk

/-- The operation chosen in the sidebar (after auto-detection). -/
inductive Op
  | solveEq
  | simplifyE
  | differentiate
  | integrate
  | factorE
  | expandE
  | evaluate
  deriving DecidableEq, Repr

/-- Substring test. -/
def hasSub (pat : List Char) : List Char → Bool
  | [] => pat.isEmpty
  | c :: rest => leadsWith pat (c :: rest) || hasSub pat rest

/-- The auto-detect mapping of the `Run` handler, applied to the raw input
lower-cased: a leading `d/d` or a `diff(` substring means Differentiate, an
integral sign or `integrate` means Integrate, an `=` means Solve, and
anything else Simplify. -/
def detectOp (raw : String) : Op :=
  let sl := raw.toList.map Char.toLower
  if leadsWith ['d', '/', 'd'] (sl.dropWhile isWS) || hasSub "diff(".toList sl then
    .differentiate
  else if sl.contains '∫' || hasSub "integrate".toList sl then .integrate
  else if sl.contains '=' then .solveEq
  else .simplifyE

/-- Solution sets as returned by the CAL `solveset` over `S.Complexes`. -/
inductive SolveSet
  | finite (qs : List Frac)
  | domain
  | empty
  | unsupported (ex : Expr) (v : String)
  deriving DecidableEq, Repr

/-- The head of the text `st.write` shows for a solution set (`str` of the
sympy value): the whole complex domain prints as `Complexes`, the empty set
as `EmptySet`. -/
def SolveSet.display : SolveSet → String
  | .finite _ => "FiniteSet"
  | .domain => "Complexes"
  | .empty => "EmptySet"
  | .unsupported _ _ => "ConditionSet"

/-- Model of the CAL `solveset(f, v, S.Complexes)` on an expression: a
constant is classified as everywhere-zero (whole domain) or nowhere-zero
(empty set); a linear equation in the target variable has its single root;
other inputs are left as an unsupported condition-set value. -/
def solvesetE (ex : Expr) (v : String) : SolveSet :=
  match linOf ex with
  | some ([], c) => if c.isZero then .domain else .empty
  | some ([(s, a)], c) =>
    if s = v then .finite [(Frac.neg c).div a] else .unsupported ex v
  | _ => .unsupported ex v

/-- Model of `solveset` on what the Solve branch passes it: the branch
reduces an `Eq` to `lhs - rhs` and otherwise passes `parsed` unchanged, so
a boolean produced by `Eq`'s automatic evaluation reaches `solveset`, which
returns the whole domain for `True` and the empty set for `False`. -/
def solvesetP (p : Parsed) (v : String) : SolveSet :=
  match p with
  | .boolT => .domain
  | .boolF => .empty
  | .eqn l r => solvesetE (Expr.sub l r) v
  | .expr ex => solvesetE ex v

/-- The `Solve equation` branch of the `Run` handler: parse, take the first
user symbol as target, and call `solveset`. -/
def runSolve (raw varInput : String) : Except String SolveSet := do
  let parsed ← parse_input raw
  pure (solvesetP parsed ((get_symbols_from_input varInput).headD "x"))

/-- The `expr_val.func.__name__ == 'Derivative'` test of the Differentiate
branch. -/
def isDerivNode : Expr → Bool
  | .Derivative _ _ => true
  | _ => false

/-- The `Differentiate` branch: reduce an `Eq` to `lhs - rhs`; use the
parsed value as-is only when it is an unevaluated `Derivative` node, and
otherwise differentiate it (again) with respect to the first user symbol.
On a boolean sympy's `diff` raises, modelled as an error. -/
def runDifferentiate (raw varInput : String) : Except String Expr := do
  let parsed ← parse_input raw
  let exprVal ←
    match parsed with
    | .eqn l r => pure (Expr.sub l r)
    | .expr ex => pure ex
    | _ => Except.error "cannot differentiate a boolean"
  if isDerivNode exprVal then pure exprVal
  else pure (diffBy ((get_symbols_from_input varInput).headD "x") exprVal)

/-- Interpretations of the known function names over the reals; any other
name is looked up in the interpretation `Phi` of undefined functions. -/
noncomputable def evalFn (Phi : String → ℝ → ℝ) (f : String) : ℝ → ℝ :=
  if f = "sin" then Real.sin
  else if f = "cos" then Real.cos
  else if f = "tan" then Real.tan
  else if f = "sec" then fun x => 1 / Real.cos x
  else if f = "csc" then fun x => 1 / Real.sin x
  else if f = "cot" then fun x => Real.cos x / Real.sin x
  else if f = "exp" then Real.exp
  else if f = "log" then Real.log
  else if f = "sqrt" then Real.sqrt
  else if f = "asin" then Real.arcsin
  else if f = "acos" then Real.arccos
  else if f = "atan" then Real.arctan
  else Phi f

/-- Real-number semantics of an expression, the mathematical meaning used
to state that a produced tree is mathematically equal to the intended one;
an unevaluated `Derivative` node means the real derivative. -/
noncomputable def eval (Phi : String → ℝ → ℝ) (env : String → ℝ) : Expr → ℝ
  | .num n => (n : ℝ)
  | .sym s => env s
  | .pi => Real.pi
  | .e => Real.exp 1
  | .add a b => eval Phi env a + eval Phi env b
  | .sub a b => eval Phi env a - eval Phi env b
  | .mul a b => eval Phi env a * eval Phi env b
  | .div a b => eval Phi env a / eval Phi env b
  | .pow a b => Real.rpow (eval Phi env a) (eval Phi env b)
  | .neg a => -(eval Phi env a)
  | .fn f arg => evalFn Phi f (eval Phi env arg)
  | .Derivative a v => deriv (fun t => eval Phi (Function.update env v t) a) (env v)

/-- A fixed interpretation of undefined functions, for closed statements. -/
noncomputable def Phi0 : String → ℝ → ℝ := fun _ => id

/-- The constant environment, for closed statements. -/
noncomputable def envC (r : ℝ) : String → ℝ := fun _ => r

/-! ## Claim-side routing variants for the router claim -/

/-- Split a character list at the first occurrence of the target character
(none when it does not occur). -/
def splitAtFirst (target : Char) : List Char → Option (List Char × List Char)
  | [] => none
  | c :: rest =>
    if c = target then some ([], rest)
    else (fun p => (c :: p.1, p.2)) <$> splitAtFirst target rest

/-- Split at the first top-level `=`, an equals sign not enclosed in
parentheses (parenthesis depth zero). -/
def splitTopLevelEq : Nat → List Char → Option (List Char × List Char)
  | _, [] => none
  | d, c :: rest =>
    if c = '(' then (fun p => (c :: p.1, p.2)) <$> splitTopLevelEq (d + 1) rest
    else if c = ')' then (fun p => (c :: p.1, p.2)) <$> splitTopLevelEq (d - 1) rest
    else if c = '=' then
      if d = 0 then some ([], rest)
      else (fun p => (c :: p.1, p.2)) <$> splitTopLevelEq d rest
    else (fun p => (c :: p.1, p.2)) <$> splitTopLevelEq d rest

/-- The router as claim C6 words it: the two directive patterns in order,
then an equation only on a top-level `=` (split at the first such sign, the
sides parsed independently), otherwise a plain expression. -/
def routeClaimC6 (raw : String) : Except String Parsed :=
  let s := (preprocess_input raw).toList
  match matchDdx s with
  | some (v, rest) => ddxBranch v rest
  | none =>
    match matchDiff s with
    | some inner => diffBranch inner
    | none =>
      match splitTopLevelEq 0 s with
      | some (l, r) => do
        let le ← parse_expr_with_local (String.mk l)
        let re ← parse_expr_with_local (String.mk r)
        pure (mkEq le re)
      | none => do
        let ex ← parse_expr_with_local (String.mk s)
        pure (Parsed.expr ex)

/-- The router as amended: the two directive patterns in order, then an
equation on any `=` whatsoever — the normalized text split at the first
equals sign, the sides parsed independently — otherwise a plain
expression. -/
def routeAmendedCore (s : List Char) : Except String Parsed :=
  match matchDdx s with
  | some (v, rest) => ddxBranch v rest
  | none =>
    match matchDiff s with
    | some inner => diffBranch inner
    | none =>
      match splitAtFirst '=' s with
      | some (l, r) => do
        let le ← parse_expr_with_local (String.mk l)
        let re ← parse_expr_with_local (String.mk r)
        pure (mkEq le re)
      | none => do
        let ex ← parse_expr_with_local (String.mk s)
        pure (Parsed.expr ex)

/-- The amended router on raw input. -/
def routeAmendedC6 (raw : String) : Except String Parsed :=
  routeAmendedCore (preprocess_input raw).toList

/-- Splitting at the first occurrence agrees with the take-and-drop form of
Python's `split('=', 1)` when the character occurs. -/
theorem splitAtFirst_pos (cs : List Char) (h : '=' ∈ cs) :
    splitAtFirst '=' cs =
      some (cs.takeWhile (fun c => c ≠ '='), (cs.dropWhile (fun c => c ≠ '=')).tail) := by
  induction cs with
  | nil => cases h
  | cons c rest ih =>
    by_cases hc : c = '='
    · subst hc
      simp [splitAtFirst, List.takeWhile_cons, List.dropWhile_cons]
    · rcases List.mem_cons.mp h with h1 | h1
      · exact absurd h1.symm hc
      · simp [splitAtFirst, hc, List.takeWhile_cons, List.dropWhile_cons, ih h1]

/-- Splitting at a character that does not occur fails. -/
theorem splitAtFirst_neg (cs : List Char) (h : '=' ∉ cs) : splitAtFirst '=' cs = none := by
  induction cs with
  | nil => rfl
  | cons c rest ih =>
    have hc : ¬ c = '=' := fun he => h (by simp [he])
    have h2 : '=' ∉ rest := fun hr => h (List.mem_cons_of_mem _ hr)
    simp [splitAtFirst, hc, ih h2]

/-! ## The claims -/

/-- C6, counterexample: the claim says an equation form is taken only on a
top-level `=` (one not enclosed in parentheses).  On the input `(x=1)`,
whose only `=` sits inside parentheses, the code still takes the equation
path — it splits at that `=` and fails parsing the left fragment `(x` — while
the claim's router would take the plain-expression path and fail on the
whole text `(x=1)`; the two routers disagree, so the claim's description of
the `=` check is false of the code. -/
theorem c6_counterexample_paren_equals :
    parse_input "(x=1)" = .error "(x"
    ∧ routeClaimC6 "(x=1)" = .error "(x=1)"
    ∧ parse_input "(x=1)" ≠ routeClaimC6 "(x=1)" := by
  refine ⟨by decide, by decide, by decide⟩

/-- C6, amended: routing checks the directives in the fixed order —
`d/d<letter>` first, then `diff(<inner>)`, then any equals sign at all (not
only a top-level one), and otherwise a plain expression; the first matching
case wins, and for an equation the normalized text is split at the first
equals sign with each side parsed independently.  Stated as: the code's
router coincides with the amended description `routeAmendedC6` on every
input. -/
theorem c6_routing_order (raw : String) : parse_input raw = routeAmendedC6 raw := by
  show routeCore (preprocess_input raw).toList = routeAmendedCore (preprocess_input raw).toList
  generalize (preprocess_input raw).toList = s
  unfold routeCore routeAmendedCore
  cases matchDdx s with
  | some p => obtain ⟨v, rest⟩ := p; rfl
  | none =>
    cases matchDiff s with
    | some inner => rfl
    | none =>
      by_cases hm : '=' ∈ s
      · have hc : s.contains '=' = true := by simp [List.contains, hm]
        rw [splitAtFirst_pos s hm, hc]
        simp
      · have hc : s.contains '=' = false := by simp [List.contains, hm]
        rw [splitAtFirst_neg s hm, hc]
        simp

/-- C2, the identified code bug.  Routing `d/dx sinx` does take the
differentiation-directive path with variable `x` and expression `sin(x)`,
and returns the derivative `cos(x)` already computed; auto-detection picks
Differentiate; but that branch recognises the routed value only when it is
an unevaluated `Derivative` node — and `diff(sin(x), x)` evaluates to
`cos(x)` — so it differentiates again with the user's variable and displays
`-sin(x)`, which is not mathematically `cos(x)` (at `x = 0` they differ:
`0` against `1`).  The claim (and the app's own examples, `d/dx sinx
(works)`) state the intended result `cos(x)`. -/
theorem c2_ddx_sinx_double_differentiation :
    matchDdx (preprocess_input "d/dx sinx").toList = some ('x', "sin(x)".toList)
    ∧ parse_input "d/dx sinx" = .ok (.expr (.fn "cos" (.sym "x")))
    ∧ detectOp "d/dx sinx" = .differentiate
    ∧ runDifferentiate "d/dx sinx" "x" = .ok (.neg (.fn "sin" (.sym "x")))
    ∧ eval Phi0 (envC 0) (.neg (.fn "sin" (.sym "x"))) ≠ Real.cos (envC 0 "x") := by
  refine ⟨by decide, by decide, by decide, by decide, ?_⟩
  simp [eval, evalFn, Phi0, envC]

/-- C3, counterexample: Solve on `2x + 3 = 7` with target `x` yields the
single solution `2`, not the claimed `{4}`; indeed at `x = 4` the routed
equation's sides evaluate to `11` and `7`, so `4` is not a solution at
all. -/
theorem c3_counterexample_solution_not_four :
    runSolve "2x + 3 = 7" "x" = .ok (.finite [Frac.ofInt 2])
    ∧ SolveSet.finite [Frac.ofInt 2] ≠ .finite [Frac.ofInt 4]
    ∧ eval Phi0 (envC 4) (.add (.mul (.num 2) (.sym "x")) (.num 3)) ≠
        eval Phi0 (envC 4) (.num 7) := by
  refine ⟨by decide, by decide, ?_⟩
  simp [eval, evalFn, Phi0, envC]
  norm_num

/-- C3, amended: routing `2x + 3 = 7` yields an equation form with left
side `2*x+3` and right side `7`, and dispatching Solve on it with target
variable `x` yields the singleton solution set `{2}` — and `x = 2` does
satisfy the equation, both sides evaluating to `7`. -/
theorem c3_solve_linear_equation :
    parse_input "2x + 3 = 7" =
      .ok (.eqn (.add (.mul (.num 2) (.sym "x")) (.num 3)) (.num 7))
    ∧ runSolve "2x + 3 = 7" "x" = .ok (.finite [Frac.ofInt 2])
    ∧ eval Phi0 (envC 2) (.add (.mul (.num 2) (.sym "x")) (.num 3)) =
        eval Phi0 (envC 2) (.num 7) := by
  refine ⟨by decide, by decide, ?_⟩
  simp [eval, evalFn, Phi0, envC]
  norm_num

/-- C7, counterexample: Solve on `x = x` does not produce the textual
classification `Identity`, and Solve on `x = x+1` does not produce
`Contradiction`: the code has no such classification.  `Eq` evaluates the
trivial equations to booleans, and `solveset` maps those to the whole
complex domain (displayed `Complexes`) and to the empty set (displayed
`EmptySet`). -/
theorem c7_counterexample_no_identity_text :
    runSolve "x = x" "x" = .ok SolveSet.domain
    ∧ SolveSet.display SolveSet.domain ≠ "Identity"
    ∧ runSolve "x = x+1" "x" = .ok SolveSet.empty
    ∧ SolveSet.display SolveSet.empty ≠ "Contradiction" := by
  refine ⟨by decide, by decide, by decide, by decide⟩

/-- C7, amended: when Solve is dispatched on an equation with zero free
symbols after reduction the result is a set-valued classification, not an
error: the whole solution domain when the sides are trivially equal
(`x = x`), and the empty set when they differ by a nonzero constant
(`x = x+1`). -/
theorem c7_trivial_equations_classified :
    detectOp "x = x" = .solveEq
    ∧ parse_input "x = x" = .ok .boolT
    ∧ runSolve "x = x" "x" = .ok SolveSet.domain
    ∧ detectOp "x = x+1" = .solveEq
    ∧ parse_input "x = x+1" = .ok .boolF
    ∧ runSolve "x = x+1" "x" = .ok SolveSet.empty := by
  refine ⟨by decide, by decide, by decide, by decide, by decide, by decide⟩

example : get_symbols_from_input "a b" = ["a", "b"] := by decide
example : get_symbols_from_input "y , z" = ["y", "z"] := by decide

/-- C10, counterexample: the claim's own instance fails.  For the input
`diff(x^3)` (no space), normalization rewrites `diff(` to `diff*(` — `diff`
is not in `MATH_FUNCS` — so the `diff(<inner>)` directive pattern does not
match, and parsing `diff*(x**3)` fails (the name `diff` resolves to a
callable, not a symbol); routing produces an error, not the computed
derivative, so no dispatched operation can receive the derivative. -/
theorem c10_counterexample_diff_corrupted :
    preprocess_input "diff(x^3)" = "diff*(x**3)"
    ∧ parse_input "diff(x^3)" = .error "diff*(x**3)" := by
  refine ⟨by decide, by decide⟩

/-- C10, amended: for EVERY input whose normalized text matches the
`d/d<letter>` directive with a nonempty parseable body, routing returns the
already-computed derivative of the body with respect to that letter; for
EVERY input whose normalized text matches the `diff (<inner>)` directive
(whitespace keeping normalization from corrupting the call) with parseable
inner text, routing returns the already-computed derivative with respect to
the inner expression's first free symbol (default `x`); but `diff(<inner>)`
written without a space is rewritten to `diff*(<inner>)`, the directive no
longer matches, and routing yields a parse error instead of the
derivative. -/
theorem c10_routing_returns_derivative :
    (∀ (raw : String) (v : Char) (rest : List Char) (ex : Expr),
        matchDdx (preprocess_input raw).toList = some (v, rest) →
        (stripCs rest).isEmpty = false →
        parse_expr_with_local (String.mk (stripCs rest)) = .ok ex →
        parse_input raw = .ok (.expr (diffBy (String.mk [v]) ex)))
    ∧ (∀ (raw : String) (inner : List Char) (ex : Expr),
        matchDdx (preprocess_input raw).toList = none →
        matchDiff (preprocess_input raw).toList = some inner →
        parse_expr_with_local (String.mk inner) = .ok ex →
        parse_input raw = .ok (.expr (diffBy ((freeSyms ex).headD "x") ex)))
    ∧ preprocess_input "diff(x^3)" = "diff*(x**3)"
    ∧ parse_input "diff(x^3)" = .error "diff*(x**3)" := by
  refine ⟨?_, ?_, by decide, by decide⟩
  · intro raw v rest ex hm hne hp
    unfold parse_input routeCore
    rw [hm]
    simp only [ddxBranch, hne, Bool.false_eq_true, if_false, hp]
    rfl
  · intro raw inner ex hd hm hp
    unfold parse_input routeCore
    rw [hd, hm]
    simp only [diffBranch, hp]
    rfl

/-- Witness for the derivative-routing theorem at the concrete inputs
`d/dx x^3` and `diff (x^3)`: both return the computed derivative
`3*x^2`. -/
theorem c10_routing_returns_derivative_witness :
    parse_input "d/dx x^3" = .ok (.expr (.mul (.num 3) (.pow (.sym "x") (.num 2))))
    ∧ parse_input "diff (x^3)" = .ok (.expr (.mul (.num 3) (.pow (.sym "x") (.num 2)))) := by
  constructor
  · have h := c10_routing_returns_derivative.1 "d/dx x^3" 'x' "x**3".toList
      (.pow (.sym "x") (.num 3)) (by decide) (by decide) (by decide)
    rw [h]
    decide
  · have h := c10_routing_returns_derivative.2.1 "diff (x^3)" "x**3".toList
      (.pow (.sym "x") (.num 3)) (by decide) (by decide) (by decide)
    rw [h]
    decide

theorem alpha_not_digit (c : Char) (h : c.isAlpha = true) : c.isDigit = false := by
  by_contra hd
  rw [Bool.not_eq_false] at hd
  simp only [Char.isAlpha, Char.isUpper, Char.isLower, Bool.or_eq_true, Bool.and_eq_true,
    decide_eq_true_eq, ge_iff_le] at h
  simp only [Char.isDigit, Bool.and_eq_true, decide_eq_true_eq, ge_iff_le] at hd
  obtain ⟨hd1, hd2⟩ := hd
  have d1 : 48 ≤ c.val.toNat := hd1
  have d2 : c.val.toNat ≤ 57 := hd2
  rcases h with ⟨h1, h2⟩ | ⟨h1, h2⟩
  · have a1 : 65 ≤ c.val.toNat := h1
    omega
  · have a1 : 97 ≤ c.val.toNat := h1
    omega

def headOk (a : Char) (l : List Char) : Bool :=
  match l.head? with
  | none => true
  | some b => !(a.isDigit && b.isAlpha)

def dlOk : List Char → Bool
  | [] => true
  | [_] => true
  | a :: b :: t => !(a.isDigit && b.isAlpha) && dlOk (b :: t)

theorem dlOk_cons (a : Char) (l : List Char) :
    dlOk (a :: l) = (headOk a l && dlOk l) := by
  cases l with
  | nil => rfl
  | cons b t => rfl

theorem headOk_of_not_alpha (a : Char) (l : List Char)
    (h : ∀ b ∈ l.head?, b.isAlpha = false) : headOk a l = true := by
  unfold headOk
  cases hh : l.head? with
  | none => rfl
  | some b => simp [h b hh]

theorem headOk_of_not_digit (a : Char) (l : List Char) (h : a.isDigit = false) :
    headOk a l = true := by
  unfold headOk
  cases l.head? with
  | none => rfl
  | some b => simp [h]

theorem dlOk_append_left (l1 l2 : List Char) (h : dlOk (l1 ++ l2) = true) :
    dlOk l1 = true := by
  induction l1 with
  | nil => rfl
  | cons a t ih =>
    rw [List.cons_append, dlOk_cons] at h
    rw [dlOk_cons]
    obtain ⟨h1, h2⟩ := Bool.and_eq_true_iff.mp h
    refine Bool.and_eq_true_iff.mpr ⟨?_, ih h2⟩
    cases t with
    | nil => rfl
    | cons b t2 => simpa [headOk] using h1

theorem dlOk_append_right (l1 l2 : List Char) (h : dlOk (l1 ++ l2) = true) :
    dlOk l2 = true := by
  induction l1 with
  | nil => simpa using h
  | cons a t ih =>
    rw [List.cons_append, dlOk_cons] at h
    exact ih (Bool.and_eq_true_iff.mp h).2

theorem dlOk_append_of (l1 l2 : List Char) (h1 : dlOk l1 = true) (h2 : dlOk l2 = true)
    (hj : ∀ a ∈ l1.getLast?, headOk a l2 = true) : dlOk (l1 ++ l2) = true := by
  induction l1 with
  | nil => simpa using h2
  | cons a t ih =>
    rw [List.cons_append, dlOk_cons]
    rw [dlOk_cons] at h1
    obtain ⟨ha, ht⟩ := Bool.and_eq_true_iff.mp h1
    refine Bool.and_eq_true_iff.mpr ⟨?_, ?_⟩
    · cases t with
      | nil =>
        simpa using hj a (by simp)
      | cons b t2 => simpa [headOk] using ha
    · refine ih ht (fun g hg => ?_)
      refine hj g ?_
      cases t with
      | nil => simp at hg
      | cons b t2 => simpa [List.getLast?_cons_cons] using hg

theorem dlOk_of_prefix (l1 l2 : List Char) (h : l1 <+: l2) (hd : dlOk l2 = true) :
    dlOk l1 = true := by
  obtain ⟨t, rfl⟩ := h
  exact dlOk_append_left l1 t hd

theorem dlOk_of_suffix (l1 l2 : List Char) (h : l1 <:+ l2) (hd : dlOk l2 = true) :
    dlOk l1 = true := by
  obtain ⟨t, rfl⟩ := h
  exact dlOk_append_right t l1 hd

theorem sub4_head (l : List Char) : (sub4 l).head? = l.head? := by
  cases l with
  | nil => rfl
  | cons a t =>
    cases t with
    | nil => rfl
    | cons b t2 =>
      unfold sub4
      by_cases h : a.isDigit && b.isAlpha
      · simp [h]
      · simp [h]

theorem sub4_dlOk (l : List Char) : dlOk (sub4 l) = true := by
  induction l using sub4.induct with
  | case1 => rfl
  | case2 c => rfl
  | case3 a b t h ih =>
    unfold sub4
    rw [if_pos h]
    have hb : b.isAlpha = true := (Bool.and_eq_true_iff.mp h).2
    have hbd : b.isDigit = false := alpha_not_digit b hb
    rw [dlOk_cons, dlOk_cons, dlOk_cons]
    refine Bool.and_eq_true_iff.mpr ⟨?_, Bool.and_eq_true_iff.mpr ⟨?_, Bool.and_eq_true_iff.mpr ⟨?_, ih⟩⟩⟩
    · refine headOk_of_not_alpha a _ (fun g hg => ?_)
      simp at hg
      subst hg
      decide
    · exact headOk_of_not_digit '*' _ (by decide)
    · exact headOk_of_not_digit b _ hbd
  | case4 a b t h ih =>
    unfold sub4
    rw [if_neg h]
    rw [dlOk_cons]
    refine Bool.and_eq_true_iff.mpr ⟨?_, ih⟩
    unfold headOk
    rw [sub4_head]
    simp only [List.head?_cons]
    have hf : (a.isDigit && b.isAlpha) = false := Bool.eq_false_iff.mpr h
    simp [hf]

theorem scan5_head (fuel : Nat) (l : List Char) : (scan5 fuel l).head? = l.head? := by
  cases fuel with
  | zero => rfl
  | succ n =>
    cases l with
    | nil => rfl
    | cons c cs =>
      unfold scan5
      by_cases hw : isWordChar c
      · rw [if_pos hw]
        split
        · simp
        · simp
      · rw [if_neg hw]
        simp

theorem dlOk_cons_of (a : Char) (l : List Char) (h1 : headOk a l = true)
    (h2 : dlOk l = true) : dlOk (a :: l) = true := by
  rw [dlOk_cons]
  exact Bool.and_eq_true_iff.mpr ⟨h1, h2⟩

theorem scan5_dlOk (fuel : Nat) : ∀ l : List Char, dlOk l = true → dlOk (scan5 fuel l) = true := by
  induction fuel with
  | zero => intro l h; exact h
  | succ n ih =>
    intro l h
    cases l with
    | nil => rfl
    | cons c cs =>
      unfold scan5
      by_cases hw : isWordChar c
      · rw [if_pos hw]
        split
        · next r2 heq =>
          have hrun : dlOk (c :: cs.takeWhile isWordChar) = true := by
            refine dlOk_of_prefix _ (c :: cs) ⟨(cs.dropWhile isWordChar), ?_⟩ h
            simp [List.takeWhile_append_dropWhile]
          have hsuf : dlOk ('(' :: r2) = true := by
            refine dlOk_of_suffix _ (c :: cs) ?_ h
            rw [← heq]
            exact (List.dropWhile_suffix _).trans ⟨[c], rfl⟩
          have hr2 : dlOk r2 = true := (Bool.and_eq_true_iff.mp ((dlOk_cons _ _) ▸ hsuf)).2
          have hrec : dlOk (scan5 n r2) = true := ih r2 hr2
          have hpar : dlOk ('(' :: scan5 n r2) = true :=
            dlOk_cons_of _ _ (headOk_of_not_digit _ _ (by decide)) hrec
          rw [List.append_assoc]
          refine dlOk_append_of _ _ hrun ?_ ?_
          · split
            · simpa using hpar
            · simp only [List.cons_append, List.nil_append]
              exact dlOk_cons_of _ _ (headOk_of_not_digit _ _ (by decide)) hpar
          · intro a _
            split
            · refine headOk_of_not_alpha a _ (fun b hb => ?_)
              simp at hb
              subst hb
              decide
            · refine headOk_of_not_alpha a _ (fun b hb => ?_)
              simp at hb
              subst hb
              decide
        · next hne =>
          have hcs : dlOk cs = true := (Bool.and_eq_true_iff.mp ((dlOk_cons _ _) ▸ h)).2
          refine dlOk_cons_of _ _ ?_ (ih cs hcs)
          unfold headOk
          rw [scan5_head]
          have := (Bool.and_eq_true_iff.mp ((dlOk_cons _ _) ▸ h)).1
          unfold headOk at this
          exact this
      · rw [if_neg hw]
        have hcs : dlOk cs = true := (Bool.and_eq_true_iff.mp ((dlOk_cons _ _) ▸ h)).2
        refine dlOk_cons_of _ _ ?_ (ih cs hcs)
        unfold headOk
        rw [scan5_head]
        have := (Bool.and_eq_true_iff.mp ((dlOk_cons _ _) ▸ h)).1
        unfold headOk at this
        exact this

theorem sub6_head (l : List Char) : (sub6 l).head? = l.head? := by
  cases l with
  | nil => rfl
  | cons a t =>
    cases t with
    | nil => rfl
    | cons b t2 =>
      unfold sub6
      by_cases hab : a = ')' && b = '('
      · have ha : a = ')' := by
          have := (Bool.and_eq_true_iff.mp hab).1
          exact of_decide_eq_true this
        rw [if_pos hab, ha]
        simp
      · rw [if_neg hab]
        simp

theorem sub6_dlOk (l : List Char) : dlOk l = true → dlOk (sub6 l) = true := by
  induction l using sub6.induct with
  | case1 => intro h; exact h
  | case2 c => intro h; exact h
  | case3 a b t hab ih =>
    intro h
    have ha : a = ')' := of_decide_eq_true (Bool.and_eq_true_iff.mp hab).1
    have hb : b = '(' := of_decide_eq_true (Bool.and_eq_true_iff.mp hab).2
    subst ha; subst hb
    unfold sub6
    rw [if_pos hab]
    have ht : dlOk t = true := by
      have h1 := (Bool.and_eq_true_iff.mp ((dlOk_cons _ _) ▸ h)).2
      exact (Bool.and_eq_true_iff.mp ((dlOk_cons _ _) ▸ h1)).2
    refine dlOk_cons_of _ _ (headOk_of_not_alpha _ _ (by intro g hg; simp at hg; subst hg; decide)) ?_
    refine dlOk_cons_of _ _ (headOk_of_not_alpha _ _ (by intro g hg; simp at hg; subst hg; decide)) ?_
    refine dlOk_cons_of _ _ (headOk_of_not_digit _ _ (by decide)) (ih ht)
  | case4 a b t hab ih =>
    intro h
    unfold sub6
    rw [if_neg hab]
    have hbt : dlOk (b :: t) = true := (Bool.and_eq_true_iff.mp ((dlOk_cons _ _) ▸ h)).2
    refine dlOk_cons_of _ _ ?_ (ih hbt)
    unfold headOk
    rw [sub6_head]
    have := (Bool.and_eq_true_iff.mp ((dlOk_cons _ _) ▸ h)).1
    unfold headOk at this
    exact this

theorem stripCs_dlOk (l : List Char) (h : dlOk l = true) : dlOk (stripCs l) = true := by
  unfold stripCs rstrip lstrip
  have h1 : dlOk (l.dropWhile isWS) = true := dlOk_of_suffix _ l (List.dropWhile_suffix _) h
  set m := l.dropWhile isWS with hm
  refine dlOk_of_prefix _ m ?_ h1
  refine ⟨((m.reverse.takeWhile isWS).reverse), ?_⟩
  conv_rhs => rw [← m.reverse_reverse, ← List.takeWhile_append_dropWhile (p := isWS) (l := m.reverse)]
  rw [List.reverse_append]

theorem leadsWith_append (f : List Char) : ∀ l : List Char, leadsWith f l = true →
    l = f ++ l.drop f.length := by
  induction f with
  | nil => intro l _; simp
  | cons a as ih =>
    intro l h
    cases l with
    | nil => simp [leadsWith] at h
    | cons b bs =>
      unfold leadsWith at h
      obtain ⟨h1, h2⟩ := Bool.and_eq_true_iff.mp h
      have hab : a = b := of_decide_eq_true h1
      subst hab
      have := ih bs h2
      simpa [List.drop_succ_cons] using congrArg (a :: ·) this

theorem tryFuncs_some {β : Type} (body : String → List Char → Option β) :
    ∀ (fs : List String) (l : List Char) (r : β),
    tryFuncs body fs l = some r → ∃ f ∈ fs, body f l = some r := by
  intro fs
  induction fs with
  | nil => intro l r h; simp [tryFuncs] at h
  | cons f fs ih =>
    intro l r h
    unfold tryFuncs at h
    rcases hb : body f l with _ | r'
    · rw [hb] at h
      obtain ⟨g, hg, hbg⟩ := ih l r h
      exact ⟨g, by simp [hg], hbg⟩
    · rw [hb] at h
      cases h
      exact ⟨f, by simp, hb⟩

theorem try1_spec (l rep rest : List Char) (h : try1 l = some (rep, rest)) :
    ∃ fl sp1 sp2 : List Char, l = fl ++ sp1 ++ '(' :: (sp2 ++ rest)
      ∧ rep = fl ++ ['(']
      ∧ (∀ c ∈ sp1, isWS c = true) ∧ (∀ c ∈ sp2, isWS c = true) := by
  obtain ⟨f, _, hf⟩ := tryFuncs_some _ MATH_FUNCS l (rep, rest) h
  dsimp only at hf
  split at hf
  · next hlw =>
    split at hf
    · next r2 heq =>
      cases hf
      refine ⟨f.toList, (l.drop f.toList.length).takeWhile isWS, r2.takeWhile isWS, ?_, rfl,
        fun c hc => List.mem_takeWhile_imp hc, fun c hc => List.mem_takeWhile_imp hc⟩
      have h1 : l.drop f.toList.length =
          (l.drop f.toList.length).takeWhile isWS ++ '(' :: r2 := by
        conv_lhs => rw [← List.takeWhile_append_dropWhile (p := isWS)
          (l := l.drop f.toList.length)]
        rw [heq]
      have hl2 : l = f.toList ++ ((l.drop f.toList.length).takeWhile isWS ++ '(' :: r2) := by
        conv_lhs => rw [leadsWith_append f.toList l hlw]
        rw [← h1]
      calc l = f.toList ++ ((l.drop f.toList.length).takeWhile isWS ++ '(' :: r2) := hl2
        _ = f.toList ++ ((l.drop f.toList.length).takeWhile isWS ++
              '(' :: (r2.takeWhile isWS ++ r2.dropWhile isWS)) := by
            rw [List.takeWhile_append_dropWhile]
        _ = f.toList ++ (l.drop f.toList.length).takeWhile isWS ++
              '(' :: (r2.takeWhile isWS ++ r2.dropWhile isWS) := by
            rw [List.append_assoc]
    · exact absurd hf (by simp)
  · exact absurd hf (by simp)

theorem try2_spec (l rep : List Char) (pw : Bool) (rest : List Char)
    (h : try2 l = some (rep, pw, rest)) :
    ∃ fl sp tok : List Char, l = fl ++ (sp ++ (tok ++ rest))
      ∧ rep = fl ++ '(' :: tok ++ [')']
      ∧ (∀ c ∈ sp, isWS c = true) := by
  obtain ⟨f, _, hf⟩ := tryFuncs_some _ MATH_FUNCS l (rep, pw, rest) h
  dsimp only at hf
  split at hf
  · next hlw =>
    split at hf
    · exact absurd hf (by simp)
    · split at hf
      · exact absurd hf (by simp)
      · cases hf
        refine ⟨f.toList, (l.drop f.toList.length).takeWhile isWS,
          ((l.drop f.toList.length).dropWhile isWS).takeWhile isTok2, ?_, rfl,
          fun c hc => List.mem_takeWhile_imp hc⟩
        conv_lhs => rw [leadsWith_append f.toList l hlw]
        congr 1
        conv_lhs => rw [← List.takeWhile_append_dropWhile (p := isWS)
          (l := l.drop f.toList.length)]
        congr 1
        exact (List.takeWhile_append_dropWhile isTok2 _).symm
  · exact absurd hf (by simp)

theorem try3_spec (l rep : List Char) (pw : Bool) (rest : List Char)
    (h : try3 l = some (rep, pw, rest)) :
    ∃ fl tok : List Char, l = fl ++ (tok ++ rest)
      ∧ rep = fl ++ '(' :: tok ++ [')'] := by
  obtain ⟨f, _, hf⟩ := tryFuncs_some _ MATH_FUNCS l (rep, pw, rest) h
  dsimp only at hf
  split at hf
  · next hlw =>
    split at hf
    · exact absurd hf (by simp)
    · cases hf
      refine ⟨f.toList, (l.drop f.toList.length).takeWhile isTok3, ?_, rfl⟩
      conv_lhs => rw [leadsWith_append f.toList l hlw]
      congr 1
      exact (List.takeWhile_append_dropWhile isTok3 _).symm
  · exact absurd hf (by simp)

/-! Count preservation: every rewrite stage preserves the number of
occurrences of any character that is not whitespace and not one of the
inserted characters star and the two parentheses. -/

theorem count_of_ws_zero (a : Char) (hws : isWS a = false) (sp : List Char)
    (h : ∀ c ∈ sp, isWS c = true) : sp.count a = 0 :=
  List.count_eq_zero.mpr (fun hmem => by rw [h a hmem] at hws; cases hws)

theorem replCaret_count (a : Char) (hstar : a ≠ '*') (hcar : a ≠ '^') :
    ∀ l : List Char, (replCaret l).count a = l.count a := by
  intro l
  induction l with
  | nil => rfl
  | cons c cs ih =>
    unfold replCaret
    by_cases hc : c = '^'
    · rw [if_pos hc]
      subst hc
      rw [List.count_cons, List.count_cons, List.count_cons, ih]
      rw [beq_eq_false_iff_ne.mpr (Ne.symm hstar), beq_eq_false_iff_ne.mpr (Ne.symm hcar)]
      simp
    · rw [if_neg hc]
      rw [List.count_cons, List.count_cons, ih]

theorem replCaret_no_caret : ∀ l : List Char, (replCaret l).count '^' = 0 := by
  intro l
  induction l with
  | nil => rfl
  | cons c cs ih =>
    unfold replCaret
    by_cases hc : c = '^'
    · rw [if_pos hc]
      simp [List.count_cons, ih]
    · rw [if_neg hc]
      simp [List.count_cons, ih, beq_eq_false_iff_ne.mpr hc]

theorem collapseWS_count (a : Char) (hws : isWS a = false) :
    ∀ (b : Bool) (l : List Char), (collapseWS b l).count a = l.count a := by
  have hsp : (' ' == a) = false := by
    refine beq_eq_false_iff_ne.mpr (fun he => ?_)
    rw [← he] at hws
    simp [isWS] at hws
  intro b l
  induction l generalizing b with
  | nil => rfl
  | cons c cs ih =>
    unfold collapseWS
    by_cases hc : isWS c = true
    · have hca : (c == a) = false := by
        refine beq_eq_false_iff_ne.mpr (fun he => ?_)
        rw [he] at hc
        rw [hc] at hws
        cases hws
      rw [if_pos hc]
      by_cases hb : b
      · rw [if_pos hb, ih true]
        simp [List.count_cons, hca]
      · rw [if_neg hb]
        simp [List.count_cons, hca, hsp, ih true]
    · rw [if_neg hc]
      simp [List.count_cons, ih false]

theorem scan1_count (a : Char) (hlp : a ≠ '(') (hws : isWS a = false) (fuel : Nat) :
    ∀ (b : Bool) (l : List Char), (scan1 fuel b l).count a = l.count a := by
  induction fuel with
  | zero => intro b l; rfl
  | succ n ih =>
    intro b l
    cases l with
    | nil => rfl
    | cons c cs =>
      unfold scan1
      by_cases hb : b
      · rw [if_pos hb]
        simp [List.count_cons, ih]
      · rw [if_neg hb]
        split
        · next rep rest heq =>
          obtain ⟨fl, sp1, sp2, hl, hrep, hs1, hs2⟩ := try1_spec _ _ _ heq
          rw [List.count_append, ih, hrep, hl]
          simp [List.count_append, List.count_cons, count_of_ws_zero a hws _ hs1,
            count_of_ws_zero a hws _ hs2, beq_eq_false_iff_ne.mpr (Ne.symm hlp)]
        · simp [List.count_cons, ih]

theorem scan2_count (a : Char) (hlp : a ≠ '(') (hrp : a ≠ ')') (hws : isWS a = false)
    (fuel : Nat) :
    ∀ (b : Bool) (l : List Char), (scan2 fuel b l).count a = l.count a := by
  induction fuel with
  | zero => intro b l; rfl
  | succ n ih =>
    intro b l
    cases l with
    | nil => rfl
    | cons c cs =>
      unfold scan2
      by_cases hb : b
      · rw [if_pos hb]
        simp [List.count_cons, ih]
      · rw [if_neg hb]
        split
        · next rep pw rest heq =>
          obtain ⟨fl, sp, tok, hl, hrep, hsp⟩ := try2_spec _ _ _ _ heq
          rw [List.count_append, ih, hrep, hl]
          simp [List.count_append, List.count_cons, count_of_ws_zero a hws _ hsp,
            beq_eq_false_iff_ne.mpr (Ne.symm hlp), beq_eq_false_iff_ne.mpr (Ne.symm hrp)]
          omega
        · simp [List.count_cons, ih]

theorem scan3_count (a : Char) (hlp : a ≠ '(') (hrp : a ≠ ')') (fuel : Nat) :
    ∀ (b : Bool) (l : List Char), (scan3 fuel b l).count a = l.count a := by
  induction fuel with
  | zero => intro b l; rfl
  | succ n ih =>
    intro b l
    cases l with
    | nil => rfl
    | cons c cs =>
      unfold scan3
      by_cases hb : b
      · rw [if_pos hb]
        simp [List.count_cons, ih]
      · rw [if_neg hb]
        split
        · next rep pw rest heq =>
          obtain ⟨fl, tok, hl, hrep⟩ := try3_spec _ _ _ _ heq
          rw [List.count_append, ih, hrep, hl]
          simp [List.count_append, List.count_cons,
            beq_eq_false_iff_ne.mpr (Ne.symm hlp), beq_eq_false_iff_ne.mpr (Ne.symm hrp)]
          omega
        · simp [List.count_cons, ih]

theorem sub4_count (a : Char) (hstar : a ≠ '*') :
    ∀ l : List Char, (sub4 l).count a = l.count a := by
  intro l
  induction l using sub4.induct with
  | case1 => rfl
  | case2 c => rfl
  | case3 x y t h ih =>
    unfold sub4
    rw [if_pos h]
    simp [List.count_cons, ih, beq_eq_false_iff_ne.mpr (Ne.symm hstar)]
  | case4 x y t h ih =>
    unfold sub4
    rw [if_neg h]
    simp [List.count_cons, ih]

theorem scan5_count (a : Char) (hstar : a ≠ '*') (hlp : a ≠ '(') (fuel : Nat) :
    ∀ l : List Char, (scan5 fuel l).count a = l.count a := by
  induction fuel with
  | zero => intro l; rfl
  | succ n ih =>
    intro l
    cases l with
    | nil => rfl
    | cons c cs =>
      unfold scan5
      by_cases hw : isWordChar c
      · rw [if_pos hw]
        split
        · next r2 heq =>
          have hcs : cs = cs.takeWhile isWordChar ++ '(' :: r2 := by
            conv_lhs => rw [← List.takeWhile_append_dropWhile (p := isWordChar) (l := cs)]
            rw [heq]
          rw [List.count_append, List.count_append, ih]
          conv_rhs => rw [List.count_cons, hcs]
          split
          · simp [List.count_append, List.count_cons,
              beq_eq_false_iff_ne.mpr (Ne.symm hlp)]
            omega
          · simp [List.count_append, List.count_cons,
              beq_eq_false_iff_ne.mpr (Ne.symm hlp), beq_eq_false_iff_ne.mpr (Ne.symm hstar)]
            omega
        · simp [List.count_cons, ih]
      · rw [if_neg hw]
        simp [List.count_cons, ih]

theorem sub6_count (a : Char) (hstar : a ≠ '*') :
    ∀ l : List Char, (sub6 l).count a = l.count a := by
  intro l
  induction l using sub6.induct with
  | case1 => rfl
  | case2 c => rfl
  | case3 x y t h ih =>
    have hx : x = ')' := of_decide_eq_true (Bool.and_eq_true_iff.mp h).1
    have hy : y = '(' := of_decide_eq_true (Bool.and_eq_true_iff.mp h).2
    subst hx; subst hy
    unfold sub6
    rw [if_pos h]
    simp [List.count_cons, ih, beq_eq_false_iff_ne.mpr (Ne.symm hstar)]
  | case4 x y t h ih =>
    unfold sub6
    rw [if_neg h]
    simp [List.count_cons, ih]

theorem stripCs_count (a : Char) (hws : isWS a = false) (l : List Char) :
    (stripCs l).count a = l.count a := by
  unfold stripCs rstrip lstrip
  have h1 : (l.dropWhile isWS).count a = l.count a := by
    conv_rhs => rw [← List.takeWhile_append_dropWhile (p := isWS) (l := l)]
    rw [List.count_append,
      count_of_ws_zero a hws _ (fun c hc => List.mem_takeWhile_imp hc)]
    omega
  rw [← h1]
  set m := l.dropWhile isWS
  rw [List.count_reverse]
  conv_rhs => rw [← List.count_reverse]
  conv_rhs => rw [← List.takeWhile_append_dropWhile (p := isWS) (l := m.reverse)]
  rw [List.count_append,
    count_of_ws_zero a hws _ (fun c hc => List.mem_takeWhile_imp hc)]
  omega

theorem preprocess_count (a : Char) (hws : isWS a = false) (hstar : a ≠ '*')
    (hlp : a ≠ '(') (hrp : a ≠ ')') (hcar : a ≠ '^') (s : String) :
    (preprocess_input s).toList.count a = s.toList.count a := by
  unfold preprocess_input
  rw [show ∀ l : List Char, (String.mk l).toList = l from fun _ => rfl]
  rw [stripCs_count a hws, sub6_count a hstar, scan5_count a hstar hlp,
    sub4_count a hstar, scan3_count a hlp hrp, scan2_count a hlp hrp hws,
    scan1_count a hlp hws, collapseWS_count a hws, replCaret_count a hstar hcar,
    stripCs_count a hws]

theorem preprocess_no_caret (s : String) :
    (preprocess_input s).toList.count '^' = 0 := by
  unfold preprocess_input
  rw [show ∀ l : List Char, (String.mk l).toList = l from fun _ => rfl]
  rw [stripCs_count '^' (by decide), sub6_count '^' (by decide),
    scan5_count '^' (by decide) (by decide), sub4_count '^' (by decide),
    scan3_count '^' (by decide) (by decide),
    scan2_count '^' (by decide) (by decide) (by decide),
    scan1_count '^' (by decide) (by decide), collapseWS_count '^' (by decide)]
  exact replCaret_no_caret _

theorem preprocess_dlOk (s : String) : dlOk (preprocess_input s).toList = true := by
  unfold preprocess_input
  rw [show ∀ l : List Char, (String.mk l).toList = l from fun _ => rfl]
  exact stripCs_dlOk _ (sub6_dlOk _ (scan5_dlOk _ _ (sub4_dlOk _)))

def llOk : List Char → Bool
  | [] => true
  | [_] => true
  | a :: b :: t => !(a.isAlpha && b.isAlpha) && llOk (b :: t)

def balPar : Int → List Char → Bool
  | d, [] => d = 0
  | d, c :: rest =>
    if c = '(' then balPar (d + 1) rest
    else if c = ')' then (0 < d) && balPar (d - 1) rest
    else balPar d rest

/-- C4, counterexample: the input `xy` lies in the claim's alphabet (letters
only, trivially matched parentheses), yet `normalize` returns it unchanged —
the output still contains two adjacent letters with no intervening operator.
The normalizer has no letter-letter multiplication rule at all (only the
digit-letter rule of step 4), so `xy` does not become `x*y`. -/
theorem c4_counterexample_adjacent_letters :
    "xy".toList.all (fun c => c.isAlpha || c.isDigit || c = '^' || c = '(' || c = ')') = true
    ∧ balPar 0 "xy".toList = true
    ∧ preprocess_input "xy" = "xy"
    ∧ llOk (preprocess_input "xy").toList = false := by
  refine ⟨by decide, by decide, by decide, by decide⟩

/-- C4, amended: for every input string (not only the claim's restricted
alphabet) `normalize` terminates — it is a total function — and its output
contains no caret and no digit immediately followed by a letter; adjacent
letters however are left together, since the normalizer has no letter-letter
multiplication rule. -/
theorem c4_normalized_output_shape (s : String) :
    '^' ∉ (preprocess_input s).toList ∧ dlOk (preprocess_input s).toList = true :=
  ⟨List.count_eq_zero.mp (preprocess_no_caret s), preprocess_dlOk s⟩

/-- C9, counterexample: the normalizer has no comma handling at all, so the
thousands-separator comma of the literal `1,000` is not removed. -/
theorem c9_counterexample_comma_not_stripped :
    preprocess_input "1,000" = "1,000" ∧ preprocess_input "1,000" ≠ "1000" := by
  refine ⟨by decide, by decide⟩

/-- C9, amended: `normalize` preserves every comma unchanged — the comma
count of the output equals that of the input for every string, so a comma
flanked by digits is not removed (`1,000` stays `1,000`) and an argument
separator inside a function call is preserved (`log(x, 10)` is returned
unchanged). -/
theorem c9_commas_never_touched :
    (∀ s : String, (preprocess_input s).toList.count ',' = s.toList.count ',')
    ∧ preprocess_input "log(x, 10)" = "log(x, 10)"
    ∧ preprocess_input "1,000" = "1,000" :=
  ⟨fun s => preprocess_count ',' (by decide) (by decide) (by decide) (by decide) (by decide) s,
   by decide, by decide⟩
